import Mathlib

/-!
Verification of the text-chunking core of the Databricks-PS-Knowledge-Copilot
repository (`app/ingest/chunker.py`), as a shallow embedding in Lean 4.

Strings are modelled as `List Char`.  Each definition mirrors one Python
function of `TextChunker`; Python's truthiness tests, slicing, `str.split`,
`str.strip` and `re.search` on the literal patterns used by the source are
embedded explicitly.
-/

set_option autoImplicit false

namespace Chunker

/-- The ASCII whitespace characters stripped by Python's `str.strip()`
(space, tab, newline, carriage return, vertical tab, form feed).  Python
also strips rarer Unicode whitespace, which never occurs in the inputs
considered here. -/
def pySpace (c : Char) : Bool :=
  c = ' ' || c = '\t' || c = '\n' || c = '\r' || c = Char.ofNat 11 || c = Char.ofNat 12

/-- Python `s.strip()`: drop leading and trailing whitespace. -/
def strip (l : List Char) : List Char :=
  ((l.dropWhile pySpace).reverse.dropWhile pySpace).reverse

/-- Scan `l` left to right for the first position at which `pat` is a
prefix of the rest of the list; `i` is the index of the current
position. -/
def findSubAux (pat : List Char) (i : Nat) (l : List Char) : Option Nat :=
  if pat.isPrefixOf l then some i
  else
    match l with
    | [] => none
    | _ :: rest => findSubAux pat (i + 1) rest

/-- Index of the leftmost occurrence of `pat` in `l` (as in Python
`str.find` / `re.search` on a literal pattern), `none` if absent. -/
def findSub (pat l : List Char) : Option Nat :=
  findSubAux pat 0 l

/-- Auxiliary for `splitOn`, structurally recursive on a fuel counter so
that it evaluates inside the kernel.  Every cut consumes at least
`sep.length ≥ 1` characters, so a fuel of `l.length + 1` can never be
exhausted before the scan finishes (`splitOnAux_fuel_irrelevant`). -/
def splitOnAux (sep : List Char) : Nat → List Char → List (List Char)
  | 0, l => [l]
  | fuel + 1, l =>
    match findSub sep l with
    | none => [l]
    | some i => l.take i :: splitOnAux sep fuel (l.drop (i + sep.length))

/-- Python `text.split(sep)` for a nonempty separator `sep`: cut at every
occurrence of `sep`, keeping empty pieces.  (Python raises `ValueError`
for an empty separator; that case, returning `[l]` here, is outside the
domain in which the chunker is used.) -/
def splitOn (sep l : List Char) : List (List Char) :=
  if sep = [] then [l] else splitOnAux sep (l.length + 1) l

theorem findSubAux_some (pat : List Char) :
    ∀ l : List Char, ∀ i j : Nat, findSubAux pat i l = some j →
      i ≤ j ∧ pat.isPrefixOf (l.drop (j - i)) = true ∧
        (j - i) + pat.length ≤ l.length := by
  intro l
  induction l with
  | nil =>
    intro i j h
    simp only [findSubAux] at h
    by_cases hp : pat.isPrefixOf ([] : List Char)
    · have hj : j = i := by
        simp [hp] at h
        omega
      subst hj
      have hpat : pat = [] := by
        have := List.isPrefixOf_iff_prefix.mp ((by simpa using hp) :
          pat.isPrefixOf ([] : List Char) = true)
        simpa using List.prefix_nil.mp this
      simp [hpat, hp]
    · simp [hp] at h
  | cons c rest ih =>
    intro i j h
    simp only [findSubAux] at h
    by_cases hp : pat.isPrefixOf (c :: rest)
    · have hj : j = i := by
        simp [hp] at h
        omega
      subst hj
      have hpre : pat <+: c :: rest := List.isPrefixOf_iff_prefix.mp (by simpa using hp)
      have hlen : pat.length ≤ (c :: rest).length := hpre.length_le
      simpa [hp] using hlen
    · simp only [hp, if_false] at h
      obtain ⟨hij, hpre, hlen⟩ := ih (i + 1) j h
      refine ⟨by omega, ?_, ?_⟩
      · have hdrop : (c :: rest).drop (j - i) = rest.drop (j - (i + 1)) := by
          have hji : 1 ≤ j - i := by omega
          have : j - i = (j - (i + 1)) + 1 := by omega
          simp [this]
        rw [hdrop]
        exact hpre
      · simp only [List.length_cons]
        omega

theorem findSub_some_bound (sep l : List Char) {i : Nat}
    (h : findSub sep l = some i) : i ≤ l.length ∧ sep.length + i ≤ l.length := by
  obtain ⟨-, -, hlen⟩ := findSubAux_some sep l 0 i h
  simp only [Nat.sub_zero] at hlen
  omega

/-- Above the adequate value `l.length`, the fuel given to `splitOnAux`
does not affect its result. -/
theorem splitOnAux_fuel_irrelevant (sep : List Char) (hsep : sep ≠ []) :
    ∀ f g l, l.length < f → l.length < g →
      splitOnAux sep f l = splitOnAux sep g l := by
  intro f
  induction f with
  | zero => intro g l hf; omega
  | succ f ih =>
    intro g l hf hg
    match g, hg with
    | g + 1, hg =>
      simp only [splitOnAux]
      match hfind : findSub sep l with
      | none => rfl
      | some i =>
        have hb := findSub_some_bound sep l hfind
        have hspos : 0 < sep.length := List.length_pos.mpr hsep
        have hdrop : (l.drop (i + sep.length)).length < f := by
          simp only [List.length_drop]; omega
        have hdrop2 : (l.drop (i + sep.length)).length < g := by
          simp only [List.length_drop]; omega
        exact congrArg _ (ih g (l.drop (i + sep.length)) hdrop hdrop2)

/-- Python's reattachment of the separator inside `_recursive_split`:
`part + separator if i < len(parts) - 1 else part`. -/
def attachSep (sep : List Char) : List (List Char) → List (List Char)
  | [] => []
  | [p] => [p]
  | p :: q :: rest => (p ++ sep) :: attachSep sep (q :: rest)

/-- The default separator hierarchy of `TextChunker.__init__`. -/
def defaultSeparators : List (List Char) :=
  ["\n\n".toList, "\n".toList, ". ".toList, "? ".toList, "! ".toList,
   "; ".toList, ", ".toList, " ".toList]

/-- `TextChunker._find_clean_break`: for each pattern in
`[". ", "? ", "! ", "\n"]` in that order, `re.search` for its leftmost
occurrence and return `match.end()` for the first pattern that occurs;
`0` if none does. -/
def find_clean_break (t : List Char) : Nat :=
  match findSub ['.', ' '] t with
  | some i => i + 2
  | none =>
    match findSub ['?', ' '] t with
    | some i => i + 2
    | none =>
      match findSub ['!', ' '] t with
      | some i => i + 2
      | none =>
        match findSub ['\n'] t with
        | some i => i + 1
        | none => 0

/-- The body of the loop in `TextChunker._apply_overlap` for one index
`i ≥ 1`: overlap window from the previous chunk, clean-break trim, then
`overlap_text + " " + curr_chunk`. -/
def overlapPair (ov : Nat) (prev curr : List Char) : List Char :=
  let overlapText := if ov < prev.length then prev.drop (prev.length - ov) else prev
  let cb := find_clean_break overlapText
  let overlapText := if cb ≠ 0 then overlapText.drop cb else overlapText
  overlapText ++ ' ' :: curr

/-- The loop of `TextChunker._apply_overlap` over `i = 1 .. n-1`: each
output element is `overlapPair` of `chunks[i-1]` and `chunks[i]`, both read
from the input list. -/
def overlapTail (ov : Nat) : List (List Char) → List (List Char)
  | c1 :: c2 :: rest => overlapPair ov c1 c2 :: overlapTail ov (c2 :: rest)
  | _ => []

/-- `TextChunker._apply_overlap`. -/
def apply_overlap (ov : Nat) (chunks : List (List Char)) : List (List Char) :=
  if chunks.length ≤ 1 ∨ ov = 0 then chunks
  else
    match chunks with
    | [] => []
    | c0 :: rest => c0 :: overlapTail ov (c0 :: rest)

/-- `TextChunker._hard_split`: `for i in range(0, len(text), chunk_size -
chunk_overlap)`, slice a window of `chunk_size`, keep its stripped form
when nonempty.  The iteration count `⌈len/stride⌉` reproduces Python's
`range`; a zero stride (invalid configuration, `ValueError` in Python)
never arises under a valid configuration. -/
def hard_split (cs ov : Nat) (text : List Char) : List (List Char) :=
  let stride := cs - ov
  (((List.range ((text.length + stride - 1) / stride)).map
      (fun k => strip ((text.drop (k * stride)).take cs))).filter (fun c => c ≠ []))

/-- One step of the accumulation loop in `TextChunker._recursive_split`:
state is `(chunks, current_chunk)`, `recur` is the recursive call with the
remaining separators. -/
def stepPart (cs : Nat) (recur : List Char → List (List Char))
    (st : List (List Char) × List Char) (pws : List Char) :
    List (List Char) × List Char :=
  let chunks := st.1
  let current := st.2
  if current.length + pws.length ≤ cs then (chunks, current ++ pws)
  else
    let chunks1 := if current ≠ [] then chunks ++ [strip current] else chunks
    if cs < pws.length then (chunks1 ++ recur pws, [])
    else (chunks1, pws)

/-- `TextChunker._recursive_split`. -/
def recursive_split (cs ov : Nat) : List (List Char) → List Char → List (List Char)
  | [], text => hard_split cs ov text
  | sep :: rest, text =>
    let parts := attachSep sep (splitOn sep text)
    let st := parts.foldl (stepPart cs (recursive_split cs ov rest)) ([], [])
    let chunks := if strip st.2 ≠ [] then st.1 ++ [strip st.2] else st.1
    apply_overlap ov chunks

/-- `TextChunker.chunk_text`: empty text gives `[]`, text within
`chunk_size` is returned as a singleton unchanged, otherwise recursive
splitting. -/
def chunk_text (cs ov : Nat) (seps : List (List Char)) (text : List Char) :
    List (List Char) :=
  if text = [] ∨ text.length ≤ cs then (if text = [] then [] else [text])
  else recursive_split cs ov seps text

/-- A configuration is valid when the target size is positive, the overlap
is smaller than the target (spec §3 invariant `0 ≤ overlap_size <
target_size`) and every separator is nonempty (an empty separator makes
Python's `str.split` raise `ValueError` before any segment is produced). -/
def ValidConfig (cs ov : Nat) (seps : List (List Char)) : Prop :=
  0 < cs ∧ ov < cs ∧ ∀ s ∈ seps, s ≠ []

/-- The error taxonomy of spec §7 relevant to construction. -/
inductive ConfigurationError where
  | invalidOverlap : ConfigurationError
  | unknownPreset : ConfigurationError
deriving DecidableEq

/-- The chunker's configuration state, as set up by `TextChunker.__init__`. -/
structure Config where
  chunk_size : Nat
  chunk_overlap : Nat
  separators : List (List Char)
deriving DecidableEq

/-- `TextChunker.__init__`, embedded as a fallible constructor: a Python
`raise` would map to `.error`, but the source body contains no validation
and no `raise`, so every argument combination yields `.ok`.  The
`separators or [...]` default applies when the argument is absent (`None`)
or an empty (falsy) list. -/
def TextChunker.init (cs ov : Nat) (seps : Option (List (List Char))) :
    Except ConfigurationError Config :=
  Except.ok
    { chunk_size := cs
      chunk_overlap := ov
      separators :=
        match seps with
        | none => defaultSeparators
        | some [] => defaultSeparators
        | some s => s }

/-- A document record as consumed by `TextChunker.chunk_documents`
(`content`, `source`, `path`; the `dict.get` defaults of the source are
the values of absent keys). -/
structure Document where
  content : List Char
  source : List Char
  path : List Char
deriving DecidableEq

/-- The metadata attached to each produced chunk. -/
structure ChunkMeta where
  source : List Char
  chunk_index : Nat
  total_chunks : Nat
  original_path : List Char
deriving DecidableEq

/-- One element of the list built by `TextChunker.chunk_documents`. -/
structure ChunkRecord where
  content : List Char
  source : List Char
  path : List Char
  metadata : ChunkMeta
deriving DecidableEq

/-- The body of the outer loop of `TextChunker.chunk_documents` for one
document: chunk its content, then emit one record per chunk with
`chunk_index = i` and `total_chunks = len(chunks)`. -/
def chunk_one_doc (cs ov : Nat) (seps : List (List Char)) (doc : Document) :
    List ChunkRecord :=
  let chunks := chunk_text cs ov seps doc.content
  chunks.enum.map (fun ic =>
    { content := ic.2
      source := doc.source
      path := doc.path
      metadata :=
        { source := doc.source
          chunk_index := ic.1
          total_chunks := chunks.length
          original_path := doc.path } })

/-- `TextChunker.chunk_documents`: the per-document records, concatenated
in input order. -/
def chunk_documents (cs ov : Nat) (seps : List (List Char))
    (docs : List Document) : List ChunkRecord :=
  docs.flatMap (chunk_one_doc cs ov seps)

/-- Clean-break locator as spec §4.4 words it (for the refinement claim
about `_find_clean_break`): take the first pattern, in the fixed priority
order `[". ", "? ", "! ", "\n"]`, that occurs anywhere in the window, and
return the end offset of that pattern's leftmost occurrence; return `0`
when no pattern occurs. -/
def specCleanBreak (w : List Char) : Nat :=
  match [['.', ' '], ['?', ' '], ['!', ' '], ['\n']].find?
      (fun p => (findSub p w).isSome) with
  | some p =>
    match findSub p w with
    | some i => i + p.length
    | none => 0
  | none => 0

/-- Overlap trimming as spec §4.3 words it: the trailing substring of the
previous segment of length `min(overlap_size, len(prev))`, with everything
before the clean-break offset dropped. -/
def specTrimmedOverlap (ov : Nat) (prev : List Char) : List Char :=
  let ot := prev.drop (prev.length - Nat.min ov prev.length)
  ot.drop (find_clean_break ot)

theorem strip_length_le (l : List Char) : (strip l).length ≤ l.length := by
  simp only [strip, List.length_reverse]
  calc ((l.dropWhile pySpace).reverse.dropWhile pySpace).length
      ≤ (l.dropWhile pySpace).reverse.length := (List.dropWhile_sublist pySpace).length_le
    _ = (l.dropWhile pySpace).length := List.length_reverse _
    _ ≤ l.length := (List.dropWhile_sublist pySpace).length_le

theorem apply_overlap_zero (chunks : List (List Char)) :
    apply_overlap 0 chunks = chunks := by
  simp [apply_overlap]

theorem overlapTail_length (ov : Nat) :
    ∀ l : List (List Char), (overlapTail ov l).length = l.length - 1
  | [] => rfl
  | [_] => rfl
  | c1 :: c2 :: rest => by
    simp [overlapTail, overlapTail_length ov (c2 :: rest)]

theorem overlapTail_getD (ov : Nat) :
    ∀ l : List (List Char), ∀ i : Nat, i + 1 < l.length →
      (overlapTail ov l).getD i [] = overlapPair ov (l.getD i []) (l.getD (i + 1) [])
  | [], i, h => by simp at h
  | [_], i, h => by simp at h
  | c1 :: c2 :: rest, 0, h => by simp [overlapTail]
  | c1 :: c2 :: rest, i + 1, h => by
    have hrec := overlapTail_getD ov (c2 :: rest) i (by simpa using h)
    simpa [overlapTail] using hrec

theorem overlapPair_eq_spec (ov : Nat) (prev curr : List Char) :
    overlapPair ov prev curr = specTrimmedOverlap ov prev ++ ' ' :: curr := by
  simp only [overlapPair, specTrimmedOverlap]
  by_cases hl : ov < prev.length
  · have hmin : Nat.min ov prev.length = ov := Nat.min_eq_left (Nat.le_of_lt hl)
    rw [hmin]
    by_cases hcb : find_clean_break (prev.drop (prev.length - ov)) = 0
    · simp [hl, hcb]
    · simp [hl, hcb]
  · have hmin : Nat.min ov prev.length = prev.length :=
      Nat.min_eq_right (Nat.le_of_not_lt hl)
    rw [hmin, Nat.sub_self, List.drop_zero]
    by_cases hcb : find_clean_break prev = 0
    · simp [hl, hcb]
    · simp [hl, hcb]

/-- C1: the source constructor `TextChunker.__init__` performs no
validation: constructing with `chunk_overlap = 200 ≥ chunk_size = 100`
succeeds (no `ConfigurationError` is raised), and chunking then runs
under this configuration — here on a short text — contradicting the
claim that such a configuration is rejected before any text is
processed. -/
theorem init_accepts_overlap_ge_target :
    TextChunker.init 100 200 none =
      Except.ok { chunk_size := 100, chunk_overlap := 200,
                  separators := defaultSeparators } ∧
    chunk_text 100 200 defaultSeparators "hello".toList = ["hello".toList] :=
  ⟨rfl, by decide⟩

/-- C9: for every configuration (in particular every valid one), chunking
the empty text returns the empty sequence; no error path exists. -/
theorem chunk_text_empty (cs ov : Nat) (seps : List (List Char))
    (hv : ValidConfig cs ov seps) : chunk_text cs ov seps [] = [] := by
  simp [chunk_text]

/-- Witness for C9 at the default configuration. -/
theorem chunk_text_empty_witness :
    chunk_text 800 150 defaultSeparators [] = [] :=
  chunk_text_empty 800 150 defaultSeparators ⟨by decide, by decide, by decide⟩

/-- C10: `_apply_overlap` returns a list of exactly the length of its
input, for every overlap value and every segment list. -/
theorem apply_overlap_length (ov : Nat) (segs : List (List Char)) :
    (apply_overlap ov segs).length = segs.length := by
  unfold apply_overlap
  split
  · rfl
  next h =>
    match segs, h with
    | [], h => simp at h
    | c0 :: rest, h => simp [overlapTail_length]

/-- C5 counterexample: under the valid configuration `target_size = 10`,
`overlap_size = 0`, the short text `" a "` is returned unmodified, not
whitespace-trimmed, so the single element differs from the trimmed
input. -/
theorem chunk_text_short_not_trimmed :
    ValidConfig 10 0 defaultSeparators ∧
    chunk_text 10 0 defaultSeparators " a ".toList ≠ [strip " a ".toList] := by
  constructor
  · exact ⟨by decide, by decide, by decide⟩
  · decide

/-- C5 amended: for nonempty `t` with `len(t) ≤ target_size`,
`chunk_text` returns the single-element sequence `[t]` with `t`
unmodified (no whitespace trimming is applied on this path). -/
theorem chunk_text_short (cs ov : Nat) (seps : List (List Char))
    (t : List Char) (hv : ValidConfig cs ov seps) (hne : t ≠ [])
    (hlen : t.length ≤ cs) : chunk_text cs ov seps t = [t] := by
  simp [chunk_text, hne, hlen]

/-- Witness for C5 at `t = "hi"`, default configuration. -/
theorem chunk_text_short_witness :
    chunk_text 800 150 defaultSeparators "hi".toList = ["hi".toList] :=
  chunk_text_short 800 150 defaultSeparators "hi".toList
    ⟨by decide, by decide, by decide⟩ (by decide) (by decide)

/-- C6: `_find_clean_break` agrees everywhere with the spec's description:
scan the patterns `". "`, `"? "`, `"! "`, `"\n"` in that fixed priority
order and return the end offset of the leftmost occurrence of the first
pattern (by pattern-type priority) occurring anywhere in the window, `0`
if none occurs. -/
theorem find_clean_break_eq_spec (w : List Char) :
    find_clean_break w = specCleanBreak w := by
  simp only [find_clean_break, specCleanBreak]
  cases h1 : findSub ['.', ' '] w <;> cases h2 : findSub ['?', ' '] w <;>
    cases h3 : findSub ['!', ' '] w <;> cases h4 : findSub ['\n'] w <;>
      simp [List.find?, h1, h2, h3, h4]

/-- C7: `_apply_overlap` returns its input unchanged when there are at
most one segment or the overlap is zero; otherwise the first segment is
unmodified and every later position `i` holds the clean-break-trimmed
trailing substring (of length `min(overlap_size, len(segments[i-1]))`) of
the previous input segment, a space, and the input segment `segments[i]`. -/
theorem apply_overlap_spec (ov : Nat) (segs : List (List Char)) :
    (segs.length ≤ 1 ∨ ov = 0 → apply_overlap ov segs = segs) ∧
    (1 < segs.length → ov ≠ 0 →
      (apply_overlap ov segs).getD 0 [] = segs.getD 0 [] ∧
      ∀ i, i < segs.length → 0 < i →
        (apply_overlap ov segs).getD i [] =
          specTrimmedOverlap ov (segs.getD (i - 1) []) ++ ' ' :: segs.getD i []) := by
  constructor
  · intro h
    simp [apply_overlap, h]
  · intro hlen hov
    have hcond : ¬ (segs.length ≤ 1 ∨ ov = 0) := by
      push_neg
      exact ⟨by omega, hov⟩
    match segs, hlen with
    | c0 :: rest, hlen =>
      have hao : apply_overlap ov (c0 :: rest) = c0 :: overlapTail ov (c0 :: rest) := by
        unfold apply_overlap
        rw [if_neg hcond]
      constructor
      · rw [hao]
        rfl
      · intro i hi hpos
        match i, hpos with
        | i + 1, _ =>
          have hstep := overlapTail_getD ov (c0 :: rest) i (by simpa using hi)
          rw [hao]
          have hcons : (c0 :: overlapTail ov (c0 :: rest)).getD (i + 1) [] =
              (overlapTail ov (c0 :: rest)).getD i [] := rfl
          rw [hcons, hstep, overlapPair_eq_spec, Nat.add_sub_cancel]

/-- The value of `chunk_text` on `"x"*1000` with `target_size = 100`,
`overlap_size = 20`, default separators: the thirteen hard-split windows,
where every window after the first carries eight `"x"*20 + " "` overlap
prefixes, one per separator recursion level. -/
def xChunks : List (List Char) :=
  List.replicate 100 'x' ::
    (List.replicate 11
        ((List.replicate 8 (List.replicate 20 'x' ++ [' '])).flatten ++
          List.replicate 100 'x') ++
      [(List.replicate 8 (List.replicate 20 'x' ++ [' '])).flatten ++
        List.replicate 40 'x'])

set_option maxRecDepth 100000 in
set_option maxHeartbeats 2000000 in
theorem chunk_text_x1000 :
    chunk_text 100 20 defaultSeparators (List.replicate 1000 'x') = xChunks := by
  decide

theorem hard_split_length_le (cs ov : Nat) (text : List Char) :
    ∀ c ∈ hard_split cs ov text, c.length ≤ cs := by
  intro c hc
  unfold hard_split at hc
  simp only [List.mem_filter, List.mem_map, List.mem_range] at hc
  obtain ⟨⟨k, hk, hkc⟩, -⟩ := hc
  subst hkc
  calc (strip ((text.drop (k * (cs - ov))).take cs)).length
      ≤ ((text.drop (k * (cs - ov))).take cs).length := strip_length_le _
    _ ≤ cs := by
        rw [List.length_take]
        exact Nat.min_le_left _ _

theorem stepPart_bound (cs : Nat) (recur : List Char → List (List Char))
    (hrec : ∀ t : List Char, ∀ c ∈ recur t, c.length ≤ cs)
    (st : List (List Char) × List Char) (pws : List Char)
    (h1 : ∀ c ∈ st.1, c.length ≤ cs) (h2 : st.2.length ≤ cs) :
    (∀ c ∈ (stepPart cs recur st pws).1, c.length ≤ cs) ∧
      (stepPart cs recur st pws).2.length ≤ cs := by
  have hflush : ∀ c ∈ (if st.2 ≠ [] then st.1 ++ [strip st.2] else st.1), c.length ≤ cs := by
    intro c hc
    by_cases hne : st.2 ≠ []
    · rw [if_pos hne] at hc
      rcases List.mem_append.mp hc with hmem | hmem
      · exact h1 c hmem
      · rw [List.mem_singleton.mp hmem]
        exact Nat.le_trans (strip_length_le _) h2
    · rw [if_neg hne] at hc
      exact h1 c hc
  unfold stepPart
  by_cases hfit : st.2.length + pws.length ≤ cs
  · rw [if_pos hfit]
    refine ⟨h1, ?_⟩
    rw [List.length_append]
    exact hfit
  · rw [if_neg hfit]
    by_cases hbig : cs < pws.length
    · rw [if_pos hbig]
      refine ⟨?_, Nat.zero_le cs⟩
      intro c hc
      rcases List.mem_append.mp hc with hmem | hmem
      · exact hflush c hmem
      · exact hrec pws c hmem
    · rw [if_neg hbig]
      exact ⟨hflush, Nat.le_of_not_lt hbig⟩

theorem foldl_stepPart_bound (cs : Nat) (recur : List Char → List (List Char))
    (hrec : ∀ t : List Char, ∀ c ∈ recur t, c.length ≤ cs) :
    ∀ (parts : List (List Char)) (st : List (List Char) × List Char),
      (∀ c ∈ st.1, c.length ≤ cs) → st.2.length ≤ cs →
      (∀ c ∈ (parts.foldl (stepPart cs recur) st).1, c.length ≤ cs) ∧
        (parts.foldl (stepPart cs recur) st).2.length ≤ cs := by
  intro parts
  induction parts with
  | nil => intro st h1 h2; exact ⟨h1, h2⟩
  | cons p ps ih =>
    intro st h1 h2
    rw [List.foldl_cons]
    obtain ⟨g1, g2⟩ := stepPart_bound cs recur hrec st p h1 h2
    exact ih (stepPart cs recur st p) g1 g2

theorem recursive_split_zero_bound (cs : Nat) :
    ∀ (seps : List (List Char)) (text : List Char),
      ∀ c ∈ recursive_split cs 0 seps text, c.length ≤ cs := by
  intro seps
  induction seps with
  | nil => exact fun text => hard_split_length_le cs 0 text
  | cons sep rest ih =>
    intro text c hc
    rw [recursive_split, apply_overlap_zero] at hc
    set st :=
      (attachSep sep (splitOn sep text)).foldl
        (stepPart cs (recursive_split cs 0 rest)) ([], []) with hst
    obtain ⟨g1, g2⟩ :=
      foldl_stepPart_bound cs (recursive_split cs 0 rest) (fun t => ih t)
        (attachSep sep (splitOn sep text)) ([], []) (by simp) (by simp)
    by_cases hne : strip st.2 ≠ []
    · rw [if_pos hne] at hc
      rcases List.mem_append.mp hc with hmem | hmem
      · exact g1 c hmem
      · rw [List.mem_singleton.mp hmem]
        exact Nat.le_trans (strip_length_le _) g2
    · rw [if_neg hne] at hc
      exact g1 c hc

/-- C3 counterexample: under the valid configuration `target_size = 10`,
`overlap_size = 5`, the text `"aaaaaaaa bbbbbbbb"` yields a segment longer
than `target_size` (`_apply_overlap` runs at every recursion level and
prepends an overlap-plus-space prefix each time). -/
theorem chunk_text_segment_exceeds_target :
    ValidConfig 10 5 defaultSeparators ∧
    ∃ c ∈ chunk_text 10 5 defaultSeparators "aaaaaaaa bbbbbbbb".toList,
      10 < c.length := by
  refine ⟨⟨by decide, by decide, by decide⟩, ?_⟩
  decide

/-- C3 amended: with `overlap_size = 0` (where `_apply_overlap` is the
identity), every segment returned by the splitter has length at most
`target_size`; with a positive overlap the returned segments can exceed
`target_size` by the prepended overlap prefixes. -/
theorem chunk_text_zero_overlap_bound (cs : Nat) (seps : List (List Char))
    (text : List Char) (hv : ValidConfig cs 0 seps) :
    ∀ c ∈ chunk_text cs 0 seps text, c.length ≤ cs := by
  intro c hc
  unfold chunk_text at hc
  by_cases h : text = [] ∨ text.length ≤ cs
  · rw [if_pos h] at hc
    by_cases he : text = []
    · rw [if_pos he] at hc
      simp at hc
    · rw [if_neg he] at hc
      rw [List.mem_singleton.mp hc]
      rcases h with h | h
      · exact absurd h he
      · exact h
  · rw [if_neg h] at hc
    exact recursive_split_zero_bound cs seps text c hc

/-- Witness for C3 at `target_size = 10`, default separators, applied to
the first segment of a text that exercises word splitting. -/
theorem chunk_text_zero_overlap_bound_witness :
    ((chunk_text 10 0 defaultSeparators "aaaaaaaa bbbbbbbb".toList).getD 0 []).length ≤ 10 :=
  chunk_text_zero_overlap_bound 10 defaultSeparators "aaaaaaaa bbbbbbbb".toList
    ⟨by decide, by decide, by decide⟩ _ (by decide)

/-- C4: `chunk_text` at the failing input `"\n\n" + "a"*11` with the valid
configuration `target_size = 10`, `overlap_size = 0`: the first returned
segment is the empty string, because the flush inside `_recursive_split`
tests the buffer before stripping (`if current_chunk:`) but appends its
stripped value; the buffer `"\n\n"` is truthy yet strips to `""`.  The
other two flush sites of the source guard on the stripped value. -/
theorem chunk_text_produces_empty_segment :
    ValidConfig 10 0 defaultSeparators ∧
    chunk_text 10 0 defaultSeparators ('\n' :: '\n' :: List.replicate 11 'a') =
      [[], List.replicate 10 'a', ['a']] :=
  ⟨⟨by decide, by decide, by decide⟩, by decide⟩

set_option maxRecDepth 100000 in
/-- C2 counterexample: on `"x"*1000` with `target_size = 100`,
`overlap_size = 20`, `chunk_text` does return 13 chunks, but not every
chunk has length at most 100: the chunk at index 1 has length 268. -/
theorem chunk_text_x1000_not_bounded :
    ¬ ((chunk_text 100 20 defaultSeparators (List.replicate 1000 'x')).length = 13 ∧
        ∀ c ∈ chunk_text 100 20 defaultSeparators (List.replicate 1000 'x'),
          c.length ≤ 100) := by
  intro h
  obtain ⟨-, hall⟩ := h
  have hmem : xChunks.getD 1 [] ∈
      chunk_text 100 20 defaultSeparators (List.replicate 1000 'x') := by
    rw [chunk_text_x1000]
    decide
  have hle := hall _ hmem
  have hlen : (xChunks.getD 1 []).length = 268 := by decide
  omega

set_option maxRecDepth 200000 in
/-- C2 amended: on `"x"*1000` with `target_size = 100`, `overlap_size =
20`, `chunk_text` returns exactly 13 chunks; each chunk after the first
begins with the 20-character tail `"x"*20` of the previous raw hard-split
window; but because `_apply_overlap` runs once per separator recursion
level (eight levels), each later chunk carries eight `"x"*20 + " "`
prefixes, so the chunk lengths are 100, 268 (eleven times) and 208 rather
than at most 100. -/
theorem chunk_text_x1000_amended :
    (chunk_text 100 20 defaultSeparators (List.replicate 1000 'x')).length = 13 ∧
    (chunk_text 100 20 defaultSeparators (List.replicate 1000 'x')).map List.length =
      [100, 268, 268, 268, 268, 268, 268, 268, 268, 268, 268, 268, 208] ∧
    ∀ i, i < 13 → 0 < i →
      ((chunk_text 100 20 defaultSeparators (List.replicate 1000 'x')).getD i []).take 20 =
        List.replicate 20 'x' ∧
      (List.replicate 20 'x').isSuffixOf
        (((List.replicate 1000 'x').drop ((i - 1) * 80)).take 100) = true := by
  refine ⟨?_, ?_, ?_⟩
  · rw [chunk_text_x1000]
    decide
  · rw [chunk_text_x1000]
    decide
  · intro i hi hpos
    rw [chunk_text_x1000]
    revert hpos
    revert i
    decide

/-- Witness for C2 at chunk index 1. -/
theorem chunk_text_x1000_amended_witness :
    ((chunk_text 100 20 defaultSeparators (List.replicate 1000 'x')).getD 1 []).take 20 =
      List.replicate 20 'x' :=
  (chunk_text_x1000_amended.2.2 1 (by decide) (by decide)).1

/-- C8: `chunk_documents` is the in-order concatenation of the
per-document chunk records; within one document split into `N` chunks the
`chunk_index` values are exactly `0, …, N-1` in order and every record's
`total_chunks` equals `N`; the index sequence restarts from `0` for each
document. -/
theorem chunk_documents_spec (cs ov : Nat) (seps : List (List Char))
    (docs : List Document) :
    chunk_documents cs ov seps docs = docs.flatMap (chunk_one_doc cs ov seps) ∧
    ∀ d : Document,
      ((chunk_one_doc cs ov seps d).map (fun ch => ch.metadata.chunk_index) =
        List.range (chunk_text cs ov seps d.content).length) ∧
      ∀ ch ∈ chunk_one_doc cs ov seps d,
        ch.metadata.total_chunks = (chunk_text cs ov seps d.content).length := by
  refine ⟨rfl, fun d => ⟨?_, ?_⟩⟩
  · unfold chunk_one_doc
    rw [List.map_map]
    exact List.enum_map_fst _
  · intro ch hch
    unfold chunk_one_doc at hch
    simp only [List.mem_map] at hch
    obtain ⟨ic, hmem, hic⟩ := hch
    rw [← hic]

/-- Witness for C8: the single record produced for a one-chunk document
has `total_chunks` equal to the document's chunk count. -/
theorem chunk_documents_spec_witness :
    ({ content := "hi".toList, source := "s".toList, path := "p".toList,
       metadata := { source := "s".toList, chunk_index := 0, total_chunks := 1,
                     original_path := "p".toList } } : ChunkRecord).metadata.total_chunks =
      (chunk_text 800 150 defaultSeparators "hi".toList).length :=
  ((chunk_documents_spec 800 150 defaultSeparators []).2
      ⟨"hi".toList, "s".toList, "p".toList⟩).2 _ (by decide)

/-- Witness for C7: both branches applied at concrete inputs. -/
theorem apply_overlap_spec_witness :
    apply_overlap 0 ["ab".toList] = ["ab".toList] ∧
    (apply_overlap 2 ["ab. cd".toList, "ef".toList]).getD 1 [] =
      specTrimmedOverlap 2 "ab. cd".toList ++ ' ' :: "ef".toList :=
  ⟨(apply_overlap_spec 0 ["ab".toList]).1 (Or.inr rfl),
   by
    have h := ((apply_overlap_spec 2 ["ab. cd".toList, "ef".toList]).2
      (by decide) (by decide)).2 1 (by decide) (by decide)
    simpa using h⟩

end Chunker
